import Mathlib

/-!
Verification of the Output channel component (`packages/output`):
the Monaco-backed text buffer operations of `OutputChannel`
(`doAppend`, `ensureMaxChannelHistory`), the per-channel FIFO edit
queue, and the `OutputChannelManager` registry (channel/resource maps,
selection tracking, `resolve`, and the quick-pick channel listing).
-/

namespace Output

/-! ### Text buffer model

A Monaco `ITextModel` is modelled by its line contents: a document is a
list of lines, each line a list of characters.  A real model always has
at least one line (the empty document is `[[]]`); theorems that need
this carry a nonemptiness hypothesis.  The model's EOL sequence is a
single newline character. -/

abbrev Line := List Char

abbrev Doc := List Line

/-- `ITextModel.getLineCount`. -/
def lineCount (d : Doc) : Nat := d.length

/-- `ITextModel.getLineContent` for the 1-based line number `n`. -/
def getLine (d : Doc) (n : Nat) : Line := d.getD (n - 1) []

/-- `ITextModel.getLineMaxColumn`: one-based column just past the end of the line. -/
def getLineMaxColumn (d : Doc) (n : Nat) : Nat := (getLine d n).length + 1

/-- `ITextModel.getLineFirstNonWhitespaceColumn`: the 1-based column of the
first non-whitespace character of line `n`, or `0` if the line is empty or
all whitespace (Monaco's documented behaviour). -/
def getLineFirstNonWhitespaceColumn (d : Doc) (n : Nat) : Nat :=
  match (getLine d n).findIdx? (fun c => !c.isWhitespace) with
  | some i => i + 1
  | none => 0

/-- Helper for `replaceRange`: append `post` to the last line of the list. -/
def spliceSuffix (post : Line) : List Line → List Line
  | [] => [post]
  | [m] => [m ++ post]
  | m :: m' :: ms => m :: spliceSuffix post (m' :: ms)

/-- Helper for `replaceRange`: the replacement lines `mid` glued between the
kept head `pre` of the start line and the kept tail `post` of the end line. -/
def splice (pre post : Line) : List Line → List Line
  | [] => [pre ++ post]
  | m :: ms => spliceSuffix post ((pre ++ m) :: ms)

/-- `ITextModel.applyEdits` with a single replacement edit: replace the range
`(sl, sc)`-`(el, ec)` (1-based lines and columns) by the lines `t`.
An insertion has `sl = el` and `sc = ec`; a deletion has `t = [[]]`
(the line decomposition of the empty string, which Monaco uses for
`text: null`). -/
def replaceRange (d : Doc) (sl sc el ec : Nat) (t : List Line) : Doc :=
  d.take (sl - 1)
    ++ splice ((getLine d sl).take (sc - 1)) ((getLine d el).drop (ec - 1)) t
    ++ d.drop el

/-- Concatenation of two documents' texts at the line level: the last line of
`xs` is joined with the first line of `ys`.  This is the line decomposition of
the string concatenation `textOf xs ++ textOf ys`. -/
def glue : List Line → List Line → List Line
  | [], ys => ys
  | [x], [] => [x]
  | [x], y :: ys => (x ++ y) :: ys
  | x :: x' :: xs, ys => x :: glue (x' :: xs) ys

/-- The full text of a document, lines joined by the EOL character. -/
def docText : Doc → List Char
  | [] => []
  | [l] => l
  | l :: l' :: ls => l ++ '\n' :: docText (l' :: ls)

/-- The line decomposition of the model's EOL sequence `"\n"`. -/
def eolLines : List Line := [[], []]

/-- `doAppend`'s edit position: the end of the document, i.e. position
`(getLineCount, getLineMaxColumn getLineCount)`; the edit inserts `t` there. -/
def insertAtEnd (d : Doc) (t : List Line) : Doc :=
  let lastLine := lineCount d
  let lastLineMaxColumn := getLineMaxColumn d lastLine
  replaceRange d lastLine lastLineMaxColumn lastLine lastLineMaxColumn t

/-- The text inserted by `doAppend`: `content` followed by the EOL sequence
when `eol` is set (`appendLine`), plain `content` otherwise (`append`).
String concatenation with the EOL is `glue` at the line level. -/
def appendEditText (content : List Line) (eol : Bool) : List Line :=
  if eol then glue content eolLines else content

/-- The text edit performed by `OutputChannel.doAppend` (before history
trimming): insert the append text at the end of the document. -/
def doAppendEdit (d : Doc) (content : List Line) (eol : Bool) : Doc :=
  insertAtEnd d (appendEditText content eol)

/-- `linesToRemove` as computed by `ensureMaxChannelHistory`:
`getLineCount() - maxLineNumber - 1` (the `- 1` because the last line is
usually empty after `appendLine`). -/
def linesToRemoveOf (maxLineNumber : Nat) (d : Doc) : Nat :=
  lineCount d - maxLineNumber - 1

/-- End column of the trimming deletion: the source passes
`getLineFirstNonWhitespaceColumn (linesToRemove + 1)`, which is `0` for a
blank first kept line; Monaco's range validation clamps column `0` to `1`. -/
def trimEndColumn (maxLineNumber : Nat) (d : Doc) : Nat :=
  Nat.max 1 (getLineFirstNonWhitespaceColumn d (linesToRemoveOf maxLineNumber d + 1))

/-- Text-buffer effect of `OutputChannel.ensureMaxChannelHistory`: when the
line count exceeds `maxLineNumber + 1`, delete the range from `(1, 1)` to
`(linesToRemove + 1, getLineFirstNonWhitespaceColumn (linesToRemove + 1))`. -/
def ensureMaxChannelHistory (maxLineNumber : Nat) (d : Doc) : Doc :=
  let linesToRemove := linesToRemoveOf maxLineNumber d
  if 0 < linesToRemove then
    replaceRange d 1 1 (linesToRemove + 1) (trimEndColumn maxLineNumber d) [[]]
  else d

/-- `OutputChannel.doAppend` on the text buffer: apply the append edit, then
trim the history.  (The severity path only adds decorations; it does not
change the text.) -/
def channelAppend (maxLineNumber : Nat) (d : Doc) (content : List Line) (eol : Bool) : Doc :=
  ensureMaxChannelHistory maxLineNumber (doAppendEdit d content eol)

/-- The `maxLineNumber` setter: store the new maximum and `append('')` to
trigger `ensureMaxChannelHistory`.  The empty string's line decomposition
is `[[]]`. -/
def setMaxLineNumber (d : Doc) (newMaxLineNumber : Nat) : Doc :=
  channelAppend newMaxLineNumber d [[]] false

/-! ### Basic lemmas about the text model -/

theorem spliceSuffix_nil_post : ∀ ms : List Line, ms ≠ [] → spliceSuffix [] ms = ms
  | [m], _ => by simp [spliceSuffix]
  | m :: m' :: ms, _ => by
    have ih := spliceSuffix_nil_post (m' :: ms) (by simp)
    simp [spliceSuffix, ih]

theorem glue_nil_right : ∀ d : Doc, glue d [] = d
  | [] => rfl
  | [x] => rfl
  | x :: y :: xs => by
    have ih := glue_nil_right (y :: xs)
    simp [glue, ih]

theorem glue_ne_nil : ∀ (d : Doc) (t : List Line), d ≠ [] → glue d t ≠ []
  | [x], [], _ => by simp [glue]
  | [x], y :: ys, _ => by simp [glue]
  | x :: y :: xs, t, _ => by simp [glue]

theorem docText_cons_ne (l : Line) (ls : Doc) (h : ls ≠ []) :
    docText (l :: ls) = l ++ '\n' :: docText ls := by
  match ls with
  | m :: ms => rfl

theorem docText_glue : ∀ (d t : Doc), docText (glue d t) = docText d ++ docText t
  | [], t => by simp [glue, docText]
  | [x], [] => by simp [glue, docText]
  | [x], [y] => by simp [glue, docText]
  | [x], y :: y' :: ys => by
    simp [glue, docText]
  | x :: x' :: xs, t => by
    have ih := docText_glue (x' :: xs) t
    rw [glue, docText_cons_ne _ _ (glue_ne_nil _ _ (by simp)),
      docText_cons_ne _ _ (by simp : x' :: xs ≠ []), ih]
    simp

theorem splice_nil_post (pre : Line) : ∀ t : List Line, splice pre [] t = glue [pre] t
  | [] => by simp [splice, glue]
  | [m] => by simp [splice, spliceSuffix, glue]
  | m :: m' :: ms => by
    simp only [splice, spliceSuffix, glue]
    exact congrArg (_ :: ·) (spliceSuffix_nil_post (m' :: ms) (by simp))

theorem insertAtEnd_singleton (x : Line) (t : List Line) :
    insertAtEnd [x] t = glue [x] t := by
  simp only [insertAtEnd, lineCount, List.length_singleton, getLineMaxColumn, getLine,
    replaceRange]
  simp only [List.getD_cons_zero, Nat.add_sub_cancel, List.take_length, List.drop_length]
  simp [splice_nil_post]

theorem insertAtEnd_cons_cons (x y : Line) (ys : List Line) (t : List Line) :
    insertAtEnd (x :: y :: ys) t = x :: insertAtEnd (y :: ys) t := by
  simp only [insertAtEnd, lineCount, List.length_cons, getLineMaxColumn, getLine, replaceRange]
  simp only [Nat.add_sub_cancel, List.getD_cons_succ, List.take_succ_cons, List.drop_succ_cons]
  rfl

theorem insertAtEnd_eq_glue : ∀ (d : Doc), d ≠ [] → ∀ t, insertAtEnd d t = glue d t
  | [x], _, t => insertAtEnd_singleton x t
  | x :: y :: ys, _, t => by
    rw [insertAtEnd_cons_cons, insertAtEnd_eq_glue (y :: ys) (by simp) t, glue]

/-! ### History trimming -/

theorem ensureMax_of_gt (m : Nat) (d : Doc) (h : m + 1 < lineCount d) :
    ensureMaxChannelHistory m d =
      (getLine d (lineCount d - m)).drop (trimEndColumn m d - 1) :: d.drop (lineCount d - m) := by
  have hk : 0 < linesToRemoveOf m d := by
    simp only [linesToRemoveOf, lineCount] at h ⊢; omega
  have hk1 : linesToRemoveOf m d + 1 = lineCount d - m := by
    simp only [linesToRemoveOf, lineCount] at h ⊢; omega
  rw [ensureMaxChannelHistory]
  simp only [hk, if_pos, hk1, replaceRange]
  simp [splice, spliceSuffix]

theorem ensureMax_of_le (m : Nat) (d : Doc) (h : lineCount d ≤ m + 1) :
    ensureMaxChannelHistory m d = d := by
  rw [ensureMaxChannelHistory, if_neg]
  simp only [linesToRemoveOf, lineCount] at h ⊢
  omega

theorem lineCount_ensureMax_le (m : Nat) (d : Doc) :
    lineCount (ensureMaxChannelHistory m d) ≤ m + 1 := by
  by_cases h : m + 1 < lineCount d
  · rw [ensureMax_of_gt m d h]
    simp only [lineCount, List.length_cons, List.length_drop] at h ⊢
    omega
  · rw [ensureMax_of_le m d (by omega)]
    omega

/-- Claim C1: after every `append`/`appendLine` (including the empty `append('')`
triggered by a change of the `output.maxChannelHistory` preference), the buffer
is trimmed to the configured maximum: the result never has more than
`maxLineNumber + 1` lines (counting the usually-empty trailing line); whenever
the line count exceeds that bound, exactly the excess leading lines are removed
from the start of the buffer (the trimmed buffer has exactly `maxLineNumber + 1`
lines and continues with the final lines of the old buffer); and a buffer within
the bound is left untouched. -/
theorem history_is_trimmed (maxLineNumber : Nat) (d content : Doc) (eol : Bool) :
    lineCount (channelAppend maxLineNumber d content eol) ≤ maxLineNumber + 1 ∧
    lineCount (setMaxLineNumber d maxLineNumber) ≤ maxLineNumber + 1 ∧
    (∀ d' : Doc, maxLineNumber + 1 < lineCount d' →
      lineCount (ensureMaxChannelHistory maxLineNumber d') = maxLineNumber + 1 ∧
      (ensureMaxChannelHistory maxLineNumber d').tail =
        d'.drop (lineCount d' - maxLineNumber)) ∧
    (∀ d' : Doc, lineCount d' ≤ maxLineNumber + 1 →
      ensureMaxChannelHistory maxLineNumber d' = d') := by
  refine ⟨lineCount_ensureMax_le _ _, lineCount_ensureMax_le _ _, fun d' h => ?_,
    fun d' h => ensureMax_of_le _ _ h⟩
  rw [ensureMax_of_gt _ _ h]
  constructor
  · simp only [lineCount, List.length_cons, List.length_drop] at h ⊢
    omega
  · rfl

/-- Witness for C1 at a concrete buffer: a four-line buffer with maximum `1`
is trimmed to two lines, keeping the last lines. -/
theorem history_is_trimmed_witness :
    lineCount (ensureMaxChannelHistory 1 [['a'], ['b'], ['c'], ['d']]) = 2 ∧
    (ensureMaxChannelHistory 1 [['a'], ['b'], ['c'], ['d']]).tail = [['d']] := by
  have h := (history_is_trimmed 1 [['a'], ['b'], ['c'], ['d']] [['x']] false).2.2.1
    [['a'], ['b'], ['c'], ['d']] (by decide)
  exact ⟨h.1, h.2.trans (by decide)⟩

/-- Claim C2: `append content` inserts exactly `content` at the end position of
the document and `appendLine content` inserts `content` followed by the EOL
sequence there; in both cases the full text of the edited document is the old
text followed by the inserted text, so no text preceding the former end of the
document is modified. -/
theorem append_only_edits (d content : Doc) (hd : d ≠ []) :
    docText (doAppendEdit d content false) = docText d ++ docText content ∧
    docText (doAppendEdit d content true) = docText d ++ (docText content ++ ['\n']) := by
  constructor
  · rw [doAppendEdit, appendEditText]
    simp only [Bool.false_eq_true, if_false]
    rw [insertAtEnd_eq_glue d hd, docText_glue]
  · rw [doAppendEdit, appendEditText, if_pos rfl, insertAtEnd_eq_glue d hd, docText_glue,
      docText_glue]
    simp [eolLines, docText]

/-- Witness for C2 on concrete one-line documents. -/
theorem append_only_edits_witness :
    docText (doAppendEdit [['a']] [['b']] false) = ['a', 'b'] ∧
    docText (doAppendEdit [['a']] [['b']] true) = ['a', 'b', '\n'] := by
  have h := append_only_edits [['a']] [['b']] (by decide)
  exact ⟨h.1.trans (by decide), h.2.trans (by decide)⟩

/-! ### The per-channel FIFO edit queue

`OutputChannel` routes every text-modifying operation through
`textModifyQueue = new PQueue({ autoStart: true, concurrency: 1 })`:
`append`/`appendLine` enqueue a `doAppend` task and `clear` enqueues a task
that resets the document.  The queue is modelled by its documented
semantics: submitted tasks wait in FIFO order, a waiting task is started
only while fewer than `concurrency` tasks are running, and a running task
finishes by applying its edit to the shared document. -/

/-- A text-modifying task submitted to `textModifyQueue`: `append` or
`appendLine` with the line decomposition of its content, or `clear`. -/
inductive ChannelTask
  | append (content : Doc)
  | appendLine (content : Doc)
  | clear
  deriving DecidableEq, Repr

/-- Effect of one task on the channel's document: the append tasks run
`doAppend` (edit plus history trimming); `clear` runs `setValue('')`. -/
def runTask (maxLineNumber : Nat) (d : Doc) : ChannelTask → Doc
  | .append content => channelAppend maxLineNumber d content false
  | .appendLine content => channelAppend maxLineNumber d content true
  | .clear => [[]]

/-- State of the task queue together with the shared document it guards.
Tasks are identified by indices under a fixed assignment
`tasks : Nat → ChannelTask`; `waiting` holds submitted but unstarted tasks in
FIFO order, `running` the started unfinished ones, `done` the finished ones in
completion order, and `submitted` every task in submission order. -/
structure PQState where
  waiting : List Nat
  running : List Nat
  done : List Nat
  submitted : List Nat
  doc : Doc
  deriving DecidableEq, Repr

/-- Transitions of a `p-queue` with the given `concurrency`: a task may be
submitted at any time, the head of `waiting` is started whenever fewer than
`concurrency` tasks are running, and any running task may complete, applying
its edit to the shared document. -/
inductive PQStep (concurrency maxLineNumber : Nat) (tasks : Nat → ChannelTask) :
    PQState → PQState → Prop
  | add (s : PQState) (t : Nat) :
      PQStep concurrency maxLineNumber tasks s
        { s with waiting := s.waiting ++ [t], submitted := s.submitted ++ [t] }
  | start (s : PQState) (t : Nat) (rest : List Nat) :
      s.waiting = t :: rest → s.running.length < concurrency →
      PQStep concurrency maxLineNumber tasks s
        { s with waiting := rest, running := s.running ++ [t] }
  | finish (s : PQState) (t : Nat) :
      t ∈ s.running →
      PQStep concurrency maxLineNumber tasks s
        ⟨s.waiting, s.running.erase t, s.done ++ [t], s.submitted,
          runTask maxLineNumber s.doc (tasks t)⟩

/-- The initial queue state over the document `d0`. -/
def initQueue (d0 : Doc) : PQState := ⟨[], [], [], [], d0⟩

theorem pqstep_invariant (m : Nat) (tasks : Nat → ChannelTask) (d0 : Doc)
    {s s' : PQState} (hstep : PQStep 1 m tasks s s')
    (h1 : s.running.length ≤ 1)
    (h2 : s.done ++ s.running ++ s.waiting = s.submitted)
    (h3 : s.doc = s.done.foldl (fun d t => runTask m d (tasks t)) d0) :
    s'.running.length ≤ 1 ∧
    s'.done ++ s'.running ++ s'.waiting = s'.submitted ∧
    s'.doc = s'.done.foldl (fun d t => runTask m d (tasks t)) d0 := by
  cases hstep with
  | add t =>
    refine ⟨h1, ?_, h3⟩
    simp only [← h2, List.append_assoc]
  | start t rest hw hc =>
    have hrun : s.running = [] := List.length_eq_zero.mp (by omega)
    rw [hw] at h2
    refine ⟨by simp [hrun], ?_, h3⟩
    simp [← h2, hrun]
  | finish t hmem =>
    have hrun : s.running = [t] := by
      cases hr : s.running with
      | nil => rw [hr] at hmem; cases hmem
      | cons a as =>
        cases has : as with
        | nil =>
          rw [hr, has] at hmem
          simp at hmem
          simp [hmem]
        | cons b bs => rw [hr, has] at h1; simp at h1
    rw [hrun] at h2
    refine ⟨by simp [hrun], ?_, ?_⟩
    · simp [← h2, hrun]
    · simp only [List.foldl_append, ← h3]
      rfl

/-- Claim C3: all text-modifying operations of a channel are serialized through
the concurrency-1 FIFO `textModifyQueue`: in every queue state reachable from
the initial one, at most one task is in flight, the completed tasks followed by
the in-flight and waiting ones are exactly the tasks in submission order (so
completion order is a prefix of submission order), and the shared document
equals the sequential application of the completed edits in that order. -/
theorem queue_serializes (m : Nat) (tasks : Nat → ChannelTask) (d0 : Doc) (s : PQState)
    (h : Relation.ReflTransGen (PQStep 1 m tasks) (initQueue d0) s) :
    s.running.length ≤ 1 ∧
    s.done ++ s.running ++ s.waiting = s.submitted ∧
    s.doc = s.done.foldl (fun d t => runTask m d (tasks t)) d0 := by
  induction h with
  | refl => exact ⟨by simp [initQueue], by simp [initQueue], by simp [initQueue]⟩
  | tail hsteps hstep ih => exact pqstep_invariant m tasks d0 hstep ih.1 ih.2.1 ih.2.2

/-- Witness for C3: one `appendLine` task is submitted, started and finished;
the reachable final state satisfies the serialization invariant. -/
theorem queue_serializes_witness :
    Relation.ReflTransGen (PQStep 1 100 (fun _ => ChannelTask.appendLine [['a']]))
      (initQueue [[]]) ⟨[], [], [0], [0], [['a'], []]⟩ ∧
    (PQState.mk [] [] [0] [0] [['a'], []]).doc =
      ([0] : List Nat).foldl
        (fun d t => runTask 100 d ((fun _ => ChannelTask.appendLine [['a']]) t)) [[]] := by
  have t1 : PQStep 1 100 (fun _ => ChannelTask.appendLine [['a']])
      (initQueue [[]]) ⟨[0], [], [], [0], [[]]⟩ := PQStep.add _ 0
  have t2 : PQStep 1 100 (fun _ => ChannelTask.appendLine [['a']])
      ⟨[0], [], [], [0], [[]]⟩ ⟨[], [0], [], [0], [[]]⟩ :=
    PQStep.start _ 0 [] rfl (by decide)
  have t3 : PQStep 1 100 (fun _ => ChannelTask.appendLine [['a']])
      ⟨[], [0], [], [0], [[]]⟩ ⟨[], [], [0], [0], [['a'], []]⟩ :=
    PQStep.finish _ 0 (by decide)
  have hchain := Relation.ReflTransGen.head t1 (Relation.ReflTransGen.head t2
    (Relation.ReflTransGen.head t3 Relation.ReflTransGen.refl))
  exact ⟨hchain, (queue_serializes 100 _ [[]] _ hchain).2.2⟩

/-! ### Decorations and history trimming

`ensureMaxChannelHistory` also maintains the channel's decorations: it
collects the decorations on the removed lines (`getLinesDecorations` over
lines `1..linesToRemove`) that are owned by the channel (tracked in
`decorationIds`), removes them with `deltaDecorations(decorationsToRemove,
[])`, drops their ids from `decorationIds`, and then applies the deleting
edit with `forceMoveMarkers`, which shifts the ranges of all remaining
decorations by the removed leading text. -/

/-- A `monaco.Range`: 1-based start/end line and column. -/
structure Range where
  startLineNumber : Nat
  startColumn : Nat
  endLineNumber : Nat
  endColumn : Nat
  deriving DecidableEq, Repr

/-- A model decoration: its id and current range.  (The source also stores
an `inlineClassName` option; it plays no role in trimming.) -/
structure Decoration where
  id : Nat
  range : Range
  deriving DecidableEq, Repr

/-- The channel state relevant for trimming: the text buffer, the model's
decorations, and the channel-owned decoration id set `decorationIds`. -/
structure TrimState where
  doc : Doc
  decorations : List Decoration
  decorationIds : List Nat
  deriving DecidableEq, Repr

/-- `ITextModel.getLinesDecorations sl el`: the decorations whose range
intersects the line interval `[sl, el]`. -/
def getLinesDecorations (sl el : Nat) (decorations : List Decoration) : List Decoration :=
  decorations.filter
    (fun dec => sl ≤ dec.range.endLineNumber && dec.range.startLineNumber ≤ el)

/-- Marker update for the trimming deletion of range `(1,1)`-`(k+1,c)`:
a position inside the deleted range collapses to the deletion start `(1,1)`;
a position after it shifts up by `k` lines (and left on the boundary line). -/
def mapPosAfterTrim (k c : Nat) (line col : Nat) : Nat × Nat :=
  if line ≤ k then (1, 1)
  else if line = k + 1 then (if col < c then (1, 1) else (1, col + 1 - c))
  else (line - k, col)

/-- Range adjustment induced by `mapPosAfterTrim` on both endpoints. -/
def mapRangeAfterTrim (k c : Nat) (r : Range) : Range :=
  ⟨(mapPosAfterTrim k c r.startLineNumber r.startColumn).1,
    (mapPosAfterTrim k c r.startLineNumber r.startColumn).2,
    (mapPosAfterTrim k c r.endLineNumber r.endColumn).1,
    (mapPosAfterTrim k c r.endLineNumber r.endColumn).2⟩

/-- The ids collected by `ensureMaxChannelHistory`:
`getLinesDecorations(1, linesToRemove).filter(({id}) => decorationIds.has(id)).map(({id}) => id)`. -/
def trimRemovedIds (maxLineNumber : Nat) (s : TrimState) : List Nat :=
  ((getLinesDecorations 1 (linesToRemoveOf maxLineNumber s.doc) s.decorations).filter
    (fun dec => s.decorationIds.contains dec.id)).map (fun dec => dec.id)

/-- `OutputChannel.ensureMaxChannelHistory` on the full channel state.
`deltaDecorations(decorationsToRemove, [])` deletes the collected decorations
and returns no new ids (so the source's added-ids loop is vacuous) and each
removed id is deleted from `decorationIds`; the `decorationsToRemove.length`
guard only skips those two no-op calls.  The final `applyEdits` (with
`forceMoveMarkers`) deletes the leading range, shifting every remaining
decoration's range. -/
def ensureMaxChannelHistoryFull (maxLineNumber : Nat) (s : TrimState) : TrimState :=
  let linesToRemove := linesToRemoveOf maxLineNumber s.doc
  if 0 < linesToRemove then
    let removedIds := trimRemovedIds maxLineNumber s
    let decorations₁ :=
      if removedIds.isEmpty then s.decorations
      else s.decorations.filter (fun dec => !removedIds.contains dec.id)
    let decorationIds₁ :=
      if removedIds.isEmpty then s.decorationIds
      else s.decorationIds.filter (fun i => !removedIds.contains i)
    let c := trimEndColumn maxLineNumber s.doc
    ⟨ensureMaxChannelHistory maxLineNumber s.doc,
      decorations₁.map (fun dec => ⟨dec.id, mapRangeAfterTrim linesToRemove c dec.range⟩),
      decorationIds₁⟩
  else s

/-- The trimming deletes exactly the channel-owned decorations intersecting
the removed lines `1..linesToRemove`. -/
def trimRemoves (maxLineNumber : Nat) (s : TrimState) (dec : Decoration) : Bool :=
  s.decorationIds.contains dec.id &&
    (1 ≤ dec.range.endLineNumber &&
      dec.range.startLineNumber ≤ linesToRemoveOf maxLineNumber s.doc)

theorem trimRemovedIds_contains (m : Nat) (s : TrimState)
    (hids : (s.decorations.map (fun dec => dec.id)).Nodup)
    (dec : Decoration) (hmem : dec ∈ s.decorations) :
    (trimRemovedIds m s).contains dec.id = trimRemoves m s dec := by
  rw [Bool.eq_iff_iff]
  constructor
  · intro h
    have h : dec.id ∈ trimRemovedIds m s := List.elem_iff.mp h
    simp only [trimRemovedIds, getLinesDecorations, List.filter_filter, List.mem_map,
      List.mem_filter] at h
    obtain ⟨dec', ⟨hmem', hp'⟩, hid⟩ := h
    have : dec' = dec := List.inj_on_of_nodup_map hids hmem' hmem hid
    subst this
    simp only [trimRemoves, Bool.and_eq_true] at hp' ⊢
    exact ⟨hp'.1, hp'.2⟩
  · intro h
    simp only [trimRemoves, Bool.and_eq_true] at h
    apply List.elem_iff.mpr
    simp only [trimRemovedIds, getLinesDecorations, List.filter_filter, List.mem_map,
      List.mem_filter]
    exact ⟨dec, ⟨hmem, by
      have hel := List.elem_iff.mp h.1
      simp [h.2.1, h.2.2, hel]⟩, rfl⟩

/-- Claim C4: when history trimming removes leading lines, exactly the
channel-owned decorations lying on the removed lines are deleted and their ids
dropped from the tracked id set, while every other decoration is kept, its
range adjusted only by the deletion of the leading text; in particular a
decoration lying strictly after the removed range survives with its lines
shifted up by `linesToRemove` and its columns unchanged. -/
theorem trim_decoration_frame (maxLineNumber : Nat) (s : TrimState)
    (hcount : maxLineNumber + 1 < lineCount s.doc)
    (hids : (s.decorations.map (fun dec => dec.id)).Nodup) :
    (ensureMaxChannelHistoryFull maxLineNumber s).decorations =
      (s.decorations.filter (fun dec => !trimRemoves maxLineNumber s dec)).map
        (fun dec => ⟨dec.id, mapRangeAfterTrim (linesToRemoveOf maxLineNumber s.doc)
          (trimEndColumn maxLineNumber s.doc) dec.range⟩) ∧
    (ensureMaxChannelHistoryFull maxLineNumber s).decorationIds =
      s.decorationIds.filter (fun i => !(trimRemovedIds maxLineNumber s).contains i) ∧
    (∀ dec ∈ s.decorations,
      linesToRemoveOf maxLineNumber s.doc + 1 < dec.range.startLineNumber →
      dec.range.startLineNumber ≤ dec.range.endLineNumber →
      (⟨dec.id, ⟨dec.range.startLineNumber - linesToRemoveOf maxLineNumber s.doc,
          dec.range.startColumn,
          dec.range.endLineNumber - linesToRemoveOf maxLineNumber s.doc,
          dec.range.endColumn⟩⟩ : Decoration) ∈
        (ensureMaxChannelHistoryFull maxLineNumber s).decorations) := by
  have hk : 0 < linesToRemoveOf maxLineNumber s.doc := by
    simp only [linesToRemoveOf, lineCount] at hcount ⊢; omega
  have hdecos : (ensureMaxChannelHistoryFull maxLineNumber s).decorations =
      (s.decorations.filter (fun dec => !trimRemoves maxLineNumber s dec)).map
        (fun dec => ⟨dec.id, mapRangeAfterTrim (linesToRemoveOf maxLineNumber s.doc)
          (trimEndColumn maxLineNumber s.doc) dec.range⟩) := by
    rw [ensureMaxChannelHistoryFull]
    simp only [hk, if_pos]
    by_cases hempty : (trimRemovedIds maxLineNumber s).isEmpty
    · rw [if_pos hempty]
      have hall : ∀ dec ∈ s.decorations, trimRemoves maxLineNumber s dec = false := by
        intro dec hmem
        rw [← trimRemovedIds_contains maxLineNumber s hids dec hmem]
        rcases List.isEmpty_iff.mp hempty with h
        rw [h]
        rfl
      rw [List.filter_eq_self.mpr (fun dec hmem => by rw [hall dec hmem]; rfl)]
    · rw [if_neg hempty]
      have hfil : s.decorations.filter
            (fun dec => !(trimRemovedIds maxLineNumber s).contains dec.id) =
          s.decorations.filter (fun dec => !trimRemoves maxLineNumber s dec) :=
        List.filter_congr (fun dec hmem => by
          rw [trimRemovedIds_contains maxLineNumber s hids dec hmem])
      rw [hfil]
  refine ⟨hdecos, ?_, ?_⟩
  · rw [ensureMaxChannelHistoryFull]
    simp only [hk, if_pos]
    by_cases hempty : (trimRemovedIds maxLineNumber s).isEmpty
    · rw [if_pos hempty]
      rcases List.isEmpty_iff.mp hempty with h
      rw [h]
      exact (List.filter_eq_self.mpr (fun i _ => rfl)).symm
    · rw [if_neg hempty]
  · intro dec hmem hstart hvalid
    rw [hdecos]
    have hnotrem : trimRemoves maxLineNumber s dec = false := by
      have hlt : ¬(dec.range.startLineNumber ≤ linesToRemoveOf maxLineNumber s.doc) := by
        omega
      simp [trimRemoves, hlt]
    have hmap : mapRangeAfterTrim (linesToRemoveOf maxLineNumber s.doc)
        (trimEndColumn maxLineNumber s.doc) dec.range =
        ⟨dec.range.startLineNumber - linesToRemoveOf maxLineNumber s.doc,
          dec.range.startColumn,
          dec.range.endLineNumber - linesToRemoveOf maxLineNumber s.doc,
          dec.range.endColumn⟩ := by
      rw [mapRangeAfterTrim, mapPosAfterTrim, mapPosAfterTrim,
        if_neg (by omega), if_neg (by omega), if_neg (by omega), if_neg (by omega)]
    rw [← hmap]
    exact List.mem_map_of_mem _ (List.mem_filter.mpr ⟨hmem, by rw [hnotrem]; rfl⟩)

/-- Witness for C4: a four-line buffer with maximum `1`; the owned decoration
on removed line 1 is deleted and dropped from the id set, the one on kept
line 4 survives shifted up by two lines. -/
theorem trim_decoration_frame_witness :
    (ensureMaxChannelHistoryFull 1
      ⟨[['a'], ['b'], ['c'], ['d']],
        [⟨10, ⟨1, 1, 1, 2⟩⟩, ⟨11, ⟨4, 1, 4, 2⟩⟩], [10, 11]⟩).decorations =
      [⟨11, ⟨2, 1, 2, 2⟩⟩] ∧
    (ensureMaxChannelHistoryFull 1
      ⟨[['a'], ['b'], ['c'], ['d']],
        [⟨10, ⟨1, 1, 1, 2⟩⟩, ⟨11, ⟨4, 1, 4, 2⟩⟩], [10, 11]⟩).decorationIds = [11] := by
  have h := trim_decoration_frame 1
    ⟨[['a'], ['b'], ['c'], ['d']], [⟨10, ⟨1, 1, 1, 2⟩⟩, ⟨11, ⟨4, 1, 4, 2⟩⟩], [10, 11]⟩
    (by decide) (by decide)
  exact ⟨h.1.trans (by decide), h.2.1.trans (by decide)⟩

/-! ### The channel manager

`OutputChannelManager` keeps an insertion-ordered map of channels by name
and of resources by URI, tracks the selected channel, and wires up
listeners: `onChannelAdded` runs `registerListener` (which selects the new
channel when nothing is selected and subscribes to its visibility events),
and `onChannelDeleted` moves the selection off a deleted channel.  Channel
and resource objects get distinct numeric identities in the model. -/

/-- A URI, reduced to the parts the sources use: scheme and path. -/
structure Uri where
  scheme : String
  path : String
  deriving DecidableEq, Repr

/-- Modelled from the spec: `OutputUri.SCHEME` — `output-uri.ts` is not among
the sources; the spec only requires a dedicated output URI scheme. -/
def outputScheme : String := "output"

/-- Modelled from the spec: `OutputUri.create(name)` builds the URI of the
channel `name`, using the output scheme and carrying the name. -/
def OutputUri.create (name : String) : Uri := ⟨outputScheme, name⟩

/-- Modelled from the spec: `OutputUri.is(uri)` tests for the output scheme. -/
def OutputUri.is (uri : Uri) : Bool := uri.scheme == outputScheme

/-- Modelled from the spec: `OutputUri.channelName(uri)` recovers the channel
name from the URI. -/
def OutputUri.channelName (uri : Uri) : String := uri.path

/-- The manager's view of one `OutputChannel`: its name, its object identity
(channels constructed at different times are different objects), and its
`visible` flag, `true` on construction. -/
structure ChannelEntry where
  name : String
  chanId : Nat
  visible : Bool
  deriving DecidableEq, Repr

/-- One entry of the `resources` map: the URI key and the identity of the
`OutputResource` registered under it. -/
structure ResourceEntry where
  uri : Uri
  resId : Nat
  deriving DecidableEq, Repr

/-- State of `OutputChannelManager`: the insertion-ordered `channels` and
`resources` maps, the selected channel (name and object identity at
assignment time), a fresh-identity counter, logs of the fired
`onChannelAdded` and `onChannelDeleted` events, and the identities of
disposed resources. -/
structure Mgr where
  channels : List ChannelEntry
  resources : List ResourceEntry
  selected : Option (String × Nat)
  nextId : Nat
  addedLog : List String
  deletedLog : List String
  disposedResources : List Nat
  deriving DecidableEq, Repr

/-- `this.channels.get(name)`. -/
def findChannel (name : String) (s : Mgr) : Option ChannelEntry :=
  s.channels.find? (fun e => e.name == name)

/-- `OutputChannelManager.getVisibleChannels`. -/
def getVisibleChannels (s : Mgr) : List ChannelEntry :=
  s.channels.filter (fun e => e.visible)

/-- `this.getVisibleChannels()[0]` as an `Option`-valued selection. -/
def firstVisible (s : Mgr) : Option (String × Nat) :=
  (getVisibleChannels s).head?.map (fun e => (e.name, e.chanId))

/-- `OutputChannelManager.getChannel`: return the existing channel if the name
is registered; otherwise register the output resource under the channel URI
(unless one is already registered), create the channel, insert it into the
map, and fire `onChannelAdded` — whose listener runs `registerListener`,
selecting the new channel when no channel is selected.  Returns the channel's
object identity. -/
def getChannel (name : String) (s : Mgr) : Mgr × Nat :=
  match findChannel name s with
  | some e => (s, e.chanId)
  | none =>
    let uri := OutputUri.create name
    let resources :=
      if (s.resources.find? (fun r => r.uri == uri)).isSome then s.resources
      else s.resources ++ [⟨uri, s.nextId⟩]
    let chanId := s.nextId + 1
    let selected :=
      match s.selected with
      | none => some (name, chanId)
      | some p => some p
    (⟨s.channels ++ [⟨name, chanId, true⟩], resources, selected, s.nextId + 2,
      s.addedLog ++ [name], s.deletedLog, s.disposedResources⟩, chanId)

/-- Update one entry of the channel map: flip the `visible` flag of the entry
named `name`, leave every other entry unchanged. -/
def setVisEntry (name : String) (visible : Bool) (x : ChannelEntry) : ChannelEntry :=
  if x.name == name then ⟨x.name, x.chanId, visible⟩ else x

/-- `OutputChannel.setVisibility` (`show`/`hide`) on a channel registered with
the manager: flip the flag, then fire `onVisibilityChange`; the listener
installed by `registerListener` selects the channel when it became visible,
and otherwise, if the hidden channel is the selected one (object identity),
selects the first visible channel.  A name with no registered channel has no
listener and no manager-visible effect. -/
def setVisibility (name : String) (visible : Bool) (s : Mgr) : Mgr :=
  match findChannel name s with
  | none => s
  | some e =>
    let s' : Mgr := ⟨s.channels.map (setVisEntry name visible),
      s.resources, s.selected, s.nextId, s.addedLog, s.deletedLog, s.disposedResources⟩
    if visible then { s' with selected := some (name, e.chanId) }
    else if s'.selected = some (name, e.chanId) then
      { s' with selected := firstVisible s' }
    else s'

/-- `OutputChannelManager.deleteChannel`: on an unknown name, only warn.
Otherwise remove the channel from the map, dispose its registered disposables
— which dispose the channel's resource and remove it from the resources map —
and fire `onChannelDeleted` once; the listener installed in `init` moves the
selection to the first visible remaining channel when the deleted channel was
the selected one (compared by name). -/
def deleteChannel (name : String) (s : Mgr) : Mgr :=
  match findChannel name s with
  | none => s
  | some _ =>
    let uri := OutputUri.create name
    let disposed :=
      match s.resources.find? (fun r => r.uri == uri) with
      | some r => s.disposedResources ++ [r.resId]
      | none => s.disposedResources
    let s' : Mgr := ⟨s.channels.filter (fun x => !(x.name == name)),
      s.resources.filter (fun r => !(r.uri == uri)),
      s.selected, s.nextId, s.addedLog, s.deletedLog ++ [name], disposed⟩
    match s'.selected with
    | some (seln, _) =>
      if seln == name then { s' with selected := firstVisible s' } else s'
    | none => s'

/-- `OutputChannelManager.resolve`: reject URIs that do not use the output
scheme and URIs with no registered resource; return the registered resource
otherwise.  (The source throws `Error`s; the model returns `Except.error`.) -/
def resolve (uri : Uri) (s : Mgr) : Except String ResourceEntry :=
  if !OutputUri.is uri then
    Except.error "Expected the output URI scheme."
  else
    match s.resources.find? (fun r => r.uri == uri) with
    | none => Except.error "No output resource was registered with the URI."
    | some r => Except.ok r

/-- The manager-driven operations: `getChannel`, `deleteChannel`, and
`show`/`hide` on registered channels. -/
inductive MgrOp
  | getCh (name : String)
  | delCh (name : String)
  | showCh (name : String)
  | hideCh (name : String)
  deriving DecidableEq, Repr

def applyMgrOp (s : Mgr) : MgrOp → Mgr
  | .getCh name => (getChannel name s).1
  | .delCh name => deleteChannel name s
  | .showCh name => setVisibility name true s
  | .hideCh name => setVisibility name false s

/-- The manager state right after `init`: no channels, nothing selected. -/
def initMgr : Mgr := ⟨[], [], none, 0, [], [], []⟩

/-- The manager state after a sequence of manager-driven operations. -/
def runMgr (ops : List MgrOp) : Mgr := ops.foldl applyMgrOp initMgr

/-! ### Manager invariants -/

/-- Well-formedness of a manager state: channel names and object identities
are unique, identities are below the counter, resource URIs are unique, every
channel's resource is registered, and the selected channel is a registered,
visible channel. -/
structure MgrWF (s : Mgr) : Prop where
  namesNodup : (s.channels.map (fun e => e.name)).Nodup
  idsNodup : (s.channels.map (fun e => e.chanId)).Nodup
  idsLt : ∀ e ∈ s.channels, e.chanId < s.nextId
  resLt : ∀ r ∈ s.resources, r.resId < s.nextId
  urisNodup : (s.resources.map (fun r => r.uri)).Nodup
  chanRes : ∀ e ∈ s.channels, ∃ r ∈ s.resources, r.uri = OutputUri.create e.name
  selOk : ∀ n id, s.selected = some (n, id) →
    ∃ e ∈ s.channels, e.name = n ∧ e.chanId = id ∧ e.visible = true

theorem firstVisible_ok (s : Mgr) (n : String) (id : Nat)
    (h : firstVisible s = some (n, id)) :
    ∃ e ∈ s.channels, e.name = n ∧ e.chanId = id ∧ e.visible = true := by
  rw [firstVisible, Option.map_eq_some'] at h
  obtain ⟨e, he, heq⟩ := h
  have hmem : e ∈ getVisibleChannels s := List.mem_of_mem_head? he
  rw [getVisibleChannels] at hmem
  have h1 := List.mem_filter.mp hmem
  refine ⟨e, h1.1, congrArg Prod.fst heq, congrArg Prod.snd heq, h1.2⟩

theorem setVisEntry_name (name : String) (v : Bool) (x : ChannelEntry) :
    (setVisEntry name v x).name = x.name := by
  rw [setVisEntry]; split <;> rfl

theorem setVisEntry_chanId (name : String) (v : Bool) (x : ChannelEntry) :
    (setVisEntry name v x).chanId = x.chanId := by
  rw [setVisEntry]; split <;> rfl

theorem setVisEntry_of_ne (name : String) (v : Bool) (x : ChannelEntry)
    (hx : x.name ≠ name) : setVisEntry name v x = x := by
  rw [setVisEntry, if_neg]
  simp [hx]

theorem setVisEntry_of_eq (name : String) (v : Bool) (x : ChannelEntry)
    (hx : x.name = name) : setVisEntry name v x = ⟨x.name, x.chanId, v⟩ := by
  rw [setVisEntry, if_pos (beq_iff_eq.mpr hx)]

theorem getChannel_none_eq (s : Mgr) (name : String)
    (hfind : findChannel name s = none) :
    getChannel name s =
      (⟨s.channels ++ [⟨name, s.nextId + 1, true⟩],
        if (s.resources.find? (fun r => r.uri == OutputUri.create name)).isSome
          then s.resources else s.resources ++ [⟨OutputUri.create name, s.nextId⟩],
        match s.selected with
          | none => some (name, s.nextId + 1)
          | some p => some p,
        s.nextId + 2, s.addedLog ++ [name], s.deletedLog, s.disposedResources⟩,
      s.nextId + 1) := by
  simp only [getChannel, hfind]

theorem wf_getChannel (s : Mgr) (name : String) (h : MgrWF s) :
    MgrWF (getChannel name s).1 := by
  cases hfind : findChannel name s with
  | some e =>
    have heq : (getChannel name s).1 = s := by simp [getChannel, hfind]
    rw [heq]
    exact h
  | none =>
    have hname : ∀ e ∈ s.channels, e.name ≠ name := by
      intro e he heq
      have := List.find?_eq_none.mp hfind e he
      simp [heq] at this
    rw [getChannel_none_eq s name hfind]
    refine ⟨?_, ?_, ?_, ?_, ?_, ?_, ?_⟩
    · show ((s.channels ++ [(⟨name, s.nextId + 1, true⟩ : ChannelEntry)]).map
        (fun e => e.name)).Nodup
      rw [List.map_append, List.nodup_append]
      refine ⟨h.namesNodup, by simp, ?_⟩
      intro a ha hb
      obtain ⟨e, he, rfl⟩ := List.mem_map.mp ha
      simp only [List.map_cons, List.map_nil, List.mem_singleton] at hb
      exact hname e he hb
    · show ((s.channels ++ [(⟨name, s.nextId + 1, true⟩ : ChannelEntry)]).map
        (fun e => e.chanId)).Nodup
      rw [List.map_append, List.nodup_append]
      refine ⟨h.idsNodup, by simp, ?_⟩
      intro a ha hb
      obtain ⟨e, he, rfl⟩ := List.mem_map.mp ha
      simp only [List.map_cons, List.map_nil, List.mem_singleton] at hb
      have := h.idsLt e he
      omega
    · show ∀ e ∈ s.channels ++ [(⟨name, s.nextId + 1, true⟩ : ChannelEntry)],
        e.chanId < s.nextId + 2
      intro e he
      rcases List.mem_append.mp he with he | he
      · have := h.idsLt e he
        omega
      · simp only [List.mem_singleton] at he
        subst he
        show s.nextId + 1 < s.nextId + 2
        omega
    · show ∀ r ∈ (if (s.resources.find? (fun r => r.uri == OutputUri.create name)).isSome
          then s.resources else s.resources ++ [⟨OutputUri.create name, s.nextId⟩]),
        r.resId < s.nextId + 2
      intro r hr
      split at hr
      · have := h.resLt r hr
        omega
      · rcases List.mem_append.mp hr with hr | hr
        · have := h.resLt r hr
          omega
        · simp only [List.mem_singleton] at hr
          subst hr
          show s.nextId < s.nextId + 2
          omega
    · show ((if (s.resources.find? (fun r => r.uri == OutputUri.create name)).isSome
          then s.resources else s.resources ++ [⟨OutputUri.create name, s.nextId⟩]).map
            (fun r => r.uri)).Nodup
      split
      · exact h.urisNodup
      · next hnone =>
        have hnone' : s.resources.find? (fun r => r.uri == OutputUri.create name) = none := by
          rcases ho : s.resources.find? (fun r => r.uri == OutputUri.create name) with _ | r
          · exact ho
          · rw [ho] at hnone
            simp at hnone
        rw [List.map_append, List.nodup_append]
        refine ⟨h.urisNodup, by simp, ?_⟩
        intro a ha hb
        obtain ⟨r, hr, rfl⟩ := List.mem_map.mp ha
        simp only [List.map_cons, List.map_nil, List.mem_singleton] at hb
        have := List.find?_eq_none.mp hnone' r hr
        exact this (beq_iff_eq.mpr hb)
    · show ∀ e ∈ s.channels ++ [(⟨name, s.nextId + 1, true⟩ : ChannelEntry)],
        ∃ r ∈ (if (s.resources.find? (fun r => r.uri == OutputUri.create name)).isSome
          then s.resources else s.resources ++ [⟨OutputUri.create name, s.nextId⟩]),
          r.uri = OutputUri.create e.name
      intro e he
      rcases List.mem_append.mp he with he | he
      · obtain ⟨r, hr, hru⟩ := h.chanRes e he
        refine ⟨r, ?_, hru⟩
        split
        · exact hr
        · exact List.mem_append.mpr (Or.inl hr)
      · simp only [List.mem_singleton] at he
        subst he
        split
        · next hsome =>
          obtain ⟨r, hr⟩ := Option.isSome_iff_exists.mp hsome
          have hp := List.find?_some hr
          have hru : r.uri = OutputUri.create name := eq_of_beq hp
          exact ⟨r, List.mem_of_find?_eq_some hr, hru⟩
        · exact ⟨⟨OutputUri.create name, s.nextId⟩,
            List.mem_append.mpr (Or.inr (by simp)), rfl⟩
    · show ∀ n id,
        (match s.selected with
          | none => some (name, s.nextId + 1)
          | some p => some p) = some (n, id) →
        ∃ e ∈ s.channels ++ [⟨name, s.nextId + 1, true⟩],
          e.name = n ∧ e.chanId = id ∧ e.visible = true
      intro n id hsel
      cases hselOld : s.selected with
      | none =>
        rw [hselOld] at hsel
        have hsel' : some (name, s.nextId + 1) = some (n, id) := hsel
        simp only [Option.some.injEq, Prod.mk.injEq] at hsel'
        obtain ⟨rfl, rfl⟩ := hsel'
        exact ⟨⟨name, s.nextId + 1, true⟩,
          List.mem_append.mpr (Or.inr (by simp)), rfl, rfl, rfl⟩
      | some p =>
        rw [hselOld] at hsel
        have hsel' : s.selected = some (n, id) := by
          rw [hselOld]
          exact hsel
        obtain ⟨e, he, hprops⟩ := h.selOk n id hsel'
        exact ⟨e, List.mem_append.mpr (Or.inl he), hprops⟩

theorem wf_setVisibility (s : Mgr) (name : String) (v : Bool) (h : MgrWF s) :
    MgrWF (setVisibility name v s) := by
  cases hfind : findChannel name s with
  | none =>
    have heq : setVisibility name v s = s := by simp [setVisibility, hfind]
    rw [heq]
    exact h
  | some e =>
    have hfind' : s.channels.find? (fun x => x.name == name) = some e := hfind
    have hmem : e ∈ s.channels := List.mem_of_find?_eq_some hfind'
    have hp := List.find?_some hfind'
    have hename : e.name = name := eq_of_beq hp
    have hnames : (s.channels.map (setVisEntry name v)).map (fun x => x.name) =
        s.channels.map (fun x => x.name) := by
      rw [List.map_map]
      exact List.map_congr_left (fun x _ => setVisEntry_name name v x)
    have hids : (s.channels.map (setVisEntry name v)).map (fun x => x.chanId) =
        s.channels.map (fun x => x.chanId) := by
      rw [List.map_map]
      exact List.map_congr_left (fun x _ => setVisEntry_chanId name v x)
    have hnamesN : ((s.channels.map (setVisEntry name v)).map (fun x => x.name)).Nodup :=
      hnames.symm ▸ h.namesNodup
    have hidsN : ((s.channels.map (setVisEntry name v)).map (fun x => x.chanId)).Nodup :=
      hids.symm ▸ h.idsNodup
    have hidslt : ∀ x ∈ s.channels.map (setVisEntry name v), x.chanId < s.nextId := by
      intro x hx
      obtain ⟨y, hy, rfl⟩ := List.mem_map.mp hx
      rw [setVisEntry_chanId]
      exact h.idsLt y hy
    have hchanres : ∀ x ∈ s.channels.map (setVisEntry name v),
        ∃ r ∈ s.resources, r.uri = OutputUri.create x.name := by
      intro x hx
      obtain ⟨y, hy, rfl⟩ := List.mem_map.mp hx
      rw [setVisEntry_name]
      exact h.chanRes y hy
    cases v with
    | true =>
      have heq : setVisibility name true s = ⟨s.channels.map (setVisEntry name true),
          s.resources, some (name, e.chanId), s.nextId, s.addedLog, s.deletedLog,
          s.disposedResources⟩ := by
        simp [setVisibility, hfind]
      rw [heq]
      refine ⟨hnamesN, hidsN, hidslt, h.resLt, h.urisNodup, hchanres, ?_⟩
      intro n id hsel
      have hsel' : some ((name, e.chanId) : String × Nat) = some (n, id) := hsel
      simp only [Option.some.injEq, Prod.mk.injEq] at hsel'
      obtain ⟨rfl, rfl⟩ := hsel'
      refine ⟨setVisEntry name true e, List.mem_map_of_mem _ hmem, ?_, ?_, ?_⟩
      · rw [setVisEntry_name, hename]
      · rw [setVisEntry_chanId]
      · rw [setVisEntry_of_eq name true e hename]
    | false =>
      by_cases hsel : s.selected = some (name, e.chanId)
      · have heq : setVisibility name false s =
            (⟨s.channels.map (setVisEntry name false), s.resources,
              firstVisible ⟨s.channels.map (setVisEntry name false), s.resources,
                s.selected, s.nextId, s.addedLog, s.deletedLog, s.disposedResources⟩,
              s.nextId, s.addedLog, s.deletedLog, s.disposedResources⟩ : Mgr) := by
          simp [setVisibility, hfind, hsel]
        rw [heq]
        refine ⟨hnamesN, hidsN, hidslt, h.resLt, h.urisNodup, hchanres, ?_⟩
        intro n id hsel'
        exact firstVisible_ok _ n id hsel'
      · have heq : setVisibility name false s =
            ⟨s.channels.map (setVisEntry name false), s.resources, s.selected,
              s.nextId, s.addedLog, s.deletedLog, s.disposedResources⟩ := by
          simp [setVisibility, hfind, hsel]
        rw [heq]
        refine ⟨hnamesN, hidsN, hidslt, h.resLt, h.urisNodup, hchanres, ?_⟩
        intro n id hsel'
        have hsel'' : s.selected = some (n, id) := hsel'
        obtain ⟨x, hx, hxname, hxid, hxvis⟩ := h.selOk n id hsel''
        have hxne : x.name ≠ name := by
          intro hxeq
          have hxe : x = e :=
            List.inj_on_of_nodup_map h.namesNodup hx hmem (by rw [hxeq, hename])
          apply hsel
          rw [hsel'', ← hxname, ← hxid, hxe, hename]
        refine ⟨setVisEntry name false x, List.mem_map_of_mem _ hx, ?_, ?_, ?_⟩
        · rw [setVisEntry_name]
          exact hxname
        · rw [setVisEntry_chanId]
          exact hxid
        · rw [setVisEntry_of_ne name false x hxne]
          exact hxvis

theorem wf_deleteChannel (s : Mgr) (name : String) (h : MgrWF s) :
    MgrWF (deleteChannel name s) := by
  cases hfind : findChannel name s with
  | none =>
    have heq : deleteChannel name s = s := by simp [deleteChannel, hfind]
    rw [heq]
    exact h
  | some e =>
    have hnamesN : ((s.channels.filter (fun x => !(x.name == name))).map
        (fun x => x.name)).Nodup :=
      h.namesNodup.sublist ((List.filter_sublist _).map _)
    have hidsN : ((s.channels.filter (fun x => !(x.name == name))).map
        (fun x => x.chanId)).Nodup :=
      h.idsNodup.sublist ((List.filter_sublist _).map _)
    have hurisN : ((s.resources.filter
        (fun r => !(r.uri == OutputUri.create name))).map (fun r => r.uri)).Nodup :=
      h.urisNodup.sublist ((List.filter_sublist _).map _)
    have hidslt : ∀ x ∈ s.channels.filter (fun x => !(x.name == name)),
        x.chanId < s.nextId :=
      fun x hx => h.idsLt x (List.mem_filter.mp hx).1
    have hreslt : ∀ r ∈ s.resources.filter (fun r => !(r.uri == OutputUri.create name)),
        r.resId < s.nextId :=
      fun r hr => h.resLt r (List.mem_filter.mp hr).1
    have hchanres : ∀ x ∈ s.channels.filter (fun x => !(x.name == name)),
        ∃ r ∈ s.resources.filter (fun r => !(r.uri == OutputUri.create name)),
          r.uri = OutputUri.create x.name := by
      intro x hx
      have hx' := List.mem_filter.mp hx
      have hxne : x.name ≠ name := by
        intro heq
        rw [heq] at hx'
        simp at hx'
      obtain ⟨r, hr, hru⟩ := h.chanRes x hx'.1
      refine ⟨r, List.mem_filter.mpr ⟨hr, ?_⟩, hru⟩
      have hne : r.uri ≠ OutputUri.create name := by
        rw [hru]
        intro hc
        exact hxne (congrArg Uri.path hc)
      simp [hne]
    have hsurvive : ∀ n id, s.selected = some (n, id) → n ≠ name →
        ∃ x ∈ s.channels.filter (fun x => !(x.name == name)),
          x.name = n ∧ x.chanId = id ∧ x.visible = true := by
      intro n id hsel hne
      obtain ⟨x, hx, hxname, hxid, hxvis⟩ := h.selOk n id hsel
      refine ⟨x, List.mem_filter.mpr ⟨hx, ?_⟩, hxname, hxid, hxvis⟩
      have : x.name ≠ name := by rw [hxname]; exact hne
      simp [this]
    have hcore : ∀ (sel : Option (String × Nat)) (D : List Nat),
        (∀ n id, sel = some (n, id) →
          ∃ x ∈ s.channels.filter (fun x => !(x.name == name)),
            x.name = n ∧ x.chanId = id ∧ x.visible = true) →
        MgrWF ⟨s.channels.filter (fun x => !(x.name == name)),
          s.resources.filter (fun r => !(r.uri == OutputUri.create name)),
          sel, s.nextId, s.addedLog, s.deletedLog ++ [name], D⟩ :=
      fun sel D hselok =>
        ⟨hnamesN, hidsN, hidslt, hreslt, hurisN, hchanres, hselok⟩
    rcases hselOld : s.selected with _ | ⟨seln, selid⟩
    · have heq : deleteChannel name s =
          ⟨s.channels.filter (fun x => !(x.name == name)),
            s.resources.filter (fun r => !(r.uri == OutputUri.create name)),
            none, s.nextId, s.addedLog, s.deletedLog ++ [name],
            match s.resources.find? (fun r => r.uri == OutputUri.create name) with
              | some r => s.disposedResources ++ [r.resId]
              | none => s.disposedResources⟩ := by
        simp [deleteChannel, hfind, hselOld]
      rw [heq]
      exact hcore none _ (fun n id hc => Option.noConfusion hc)
    · by_cases hn : seln = name
      · have heq : deleteChannel name s =
            ⟨s.channels.filter (fun x => !(x.name == name)),
              s.resources.filter (fun r => !(r.uri == OutputUri.create name)),
              firstVisible ⟨s.channels.filter (fun x => !(x.name == name)),
                s.resources.filter (fun r => !(r.uri == OutputUri.create name)),
                s.selected, s.nextId, s.addedLog, s.deletedLog ++ [name],
                match s.resources.find? (fun r => r.uri == OutputUri.create name) with
                  | some r => s.disposedResources ++ [r.resId]
                  | none => s.disposedResources⟩,
              s.nextId, s.addedLog, s.deletedLog ++ [name],
              match s.resources.find? (fun r => r.uri == OutputUri.create name) with
                | some r => s.disposedResources ++ [r.resId]
                | none => s.disposedResources⟩ := by
          simp [deleteChannel, hfind, hselOld, hn]
        rw [heq]
        refine hcore _ _ ?_
        intro n id hc
        obtain ⟨x, hx, hprops⟩ := firstVisible_ok _ n id hc
        exact ⟨x, hx, hprops⟩
      · have heq : deleteChannel name s =
            ⟨s.channels.filter (fun x => !(x.name == name)),
              s.resources.filter (fun r => !(r.uri == OutputUri.create name)),
              s.selected, s.nextId, s.addedLog, s.deletedLog ++ [name],
              match s.resources.find? (fun r => r.uri == OutputUri.create name) with
                | some r => s.disposedResources ++ [r.resId]
                | none => s.disposedResources⟩ := by
          simp [deleteChannel, hfind, hselOld, hn]
        rw [heq]
        refine hcore _ _ ?_
        intro n id hc
        have hc' : s.selected = some (n, id) := hc
        have hnn : n ≠ name := by
          rw [hselOld] at hc'
          simp only [Option.some.injEq, Prod.mk.injEq] at hc'
          rw [← hc'.1]
          exact hn
        exact hsurvive n id hc' hnn

theorem wf_initMgr : MgrWF initMgr := by
  refine ⟨by simp [initMgr], by simp [initMgr], ?_, ?_, by simp [initMgr], ?_, ?_⟩
  · intro e he
    simp [initMgr] at he
  · intro r hr
    simp [initMgr] at hr
  · intro e he
    simp [initMgr] at he
  · intro n id hsel
    simp [initMgr] at hsel

theorem wf_applyMgrOp (s : Mgr) (op : MgrOp) (h : MgrWF s) : MgrWF (applyMgrOp s op) := by
  cases op with
  | getCh name => exact wf_getChannel s name h
  | delCh name => exact wf_deleteChannel s name h
  | showCh name => exact wf_setVisibility s name true h
  | hideCh name => exact wf_setVisibility s name false h

theorem wf_foldl (s : Mgr) (h : MgrWF s) (ops : List MgrOp) :
    MgrWF (ops.foldl applyMgrOp s) := by
  induction ops generalizing s with
  | nil => exact h
  | cons op rest ih => exact ih _ (wf_applyMgrOp s op h)

theorem wf_runMgr (ops : List MgrOp) : MgrWF (runMgr ops) :=
  wf_foldl initMgr wf_initMgr ops

theorem findChannel_after_getChannel (s : Mgr) (name : String) :
    findChannel name (getChannel name s).1 = some ⟨name, (getChannel name s).2,
      (findChannel name s).elim true (fun e => e.visible)⟩ := by
  cases hfind : findChannel name s with
  | some e =>
    have hfind' : s.channels.find? (fun x => x.name == name) = some e := hfind
    have hp := List.find?_some hfind'
    have hename : e.name = name := eq_of_beq hp
    have heq : getChannel name s = (s, e.chanId) := by simp [getChannel, hfind]
    rw [heq]
    show findChannel name s = some ⟨name, e.chanId,
      (some e).elim true (fun x => x.visible)⟩
    rw [hfind]
    show some e = some ⟨name, e.chanId, e.visible⟩
    rw [← hename]
  | none =>
    rw [getChannel_none_eq s name hfind]
    show (s.channels ++ [(⟨name, s.nextId + 1, true⟩ : ChannelEntry)]).find?
      (fun e => e.name == name) = _
    rw [List.find?_append]
    have hfind' : s.channels.find? (fun e => e.name == name) = none := hfind
    rw [hfind']
    simp [Option.elim]

/-! ### The claims about the manager -/

/-- Claim C10: after every sequence of manager-driven operations (`getChannel`,
`deleteChannel`, and `show`/`hide` on registered channels), the manager's
selected channel is either `none` or a channel that is both registered in the
channel map and visible; a hidden or deleted channel never remains selected. -/
theorem selected_channel_invariant (ops : List MgrOp) (n : String) (id : Nat)
    (h : (runMgr ops).selected = some (n, id)) :
    ∃ e ∈ (runMgr ops).channels, e.name = n ∧ e.chanId = id ∧ e.visible = true :=
  (wf_runMgr ops).selOk n id h

/-- Witness for C10: after adding two channels and hiding the selected one,
the selection has moved to the remaining visible channel. -/
theorem selected_channel_invariant_witness :
    ∃ e ∈ (runMgr [MgrOp.getCh "build", MgrOp.getCh "git",
        MgrOp.hideCh "build"]).channels,
      e.name = "git" ∧ e.chanId = 3 ∧ e.visible = true :=
  selected_channel_invariant
    [MgrOp.getCh "build", MgrOp.getCh "git", MgrOp.hideCh "build"] "git" 3 (by decide)

/-- Claim C5: the manager keeps the selection in sync with visibility and
lifetime: a registered channel that becomes visible becomes the selected
channel; hiding the selected channel moves the selection to the first visible
channel of the resulting state (`none` when no channel is visible); deleting
the selected channel moves the selection to the first visible remaining
channel likewise; and a channel created while no channel is selected becomes
selected. -/
theorem selection_sync (s : Mgr) (name : String) :
    (∀ e, findChannel name s = some e →
      (setVisibility name true s).selected = some (name, e.chanId)) ∧
    (∀ e, findChannel name s = some e → s.selected = some (name, e.chanId) →
      (setVisibility name false s).selected =
        firstVisible (setVisibility name false s)) ∧
    (∀ id, findChannel name s ≠ none → s.selected = some (name, id) →
      (deleteChannel name s).selected = firstVisible (deleteChannel name s)) ∧
    (s.selected = none → findChannel name s = none →
      (getChannel name s).1.selected = some (name, (getChannel name s).2)) := by
  refine ⟨?_, ?_, ?_, ?_⟩
  · intro e hfind
    simp [setVisibility, hfind]
  · intro e hfind hsel
    simp [setVisibility, hfind, hsel, firstVisible, getVisibleChannels]
  · intro id hne hsel
    rcases hfindr : findChannel name s with _ | e
    · exact absurd hfindr hne
    rcases hselOld : s.selected with _ | ⟨seln, selid⟩
    · rw [hselOld] at hsel
      exact Option.noConfusion hsel
    · rw [hselOld] at hsel
      have hn : seln = name := by
        simp only [Option.some.injEq, Prod.mk.injEq] at hsel
        exact hsel.1
      simp [deleteChannel, hfindr, hselOld, hn, firstVisible, getVisibleChannels]
  · intro hsel hfind
    simp [getChannel, hfind, hsel]

/-- Witness for C5: showing a registered channel selects it; the first channel
created in a fresh manager becomes selected. -/
theorem selection_sync_witness :
    (setVisibility "build" true (runMgr [MgrOp.getCh "build",
      MgrOp.getCh "git"])).selected = some ("build", 1) ∧
    (getChannel "first" initMgr).1.selected =
      some ("first", (getChannel "first" initMgr).2) := by
  refine ⟨?_, (selection_sync initMgr "first").2.2.2 rfl rfl⟩
  exact (selection_sync (runMgr [MgrOp.getCh "build", MgrOp.getCh "git"]) "build").1
    ⟨"build", 1, true⟩ (by decide)

/-- Claim C6: `getChannel` is an idempotent registry lookup: a repeated call
returns the identical channel object and leaves the manager unchanged; the
first call on a fresh name registers the channel's resource and fires
`onChannelAdded` exactly once; a call on a registered name returns that
channel with no state change and no event; and registered channels with
distinct names are distinct objects. -/
theorem getChannel_registry (s : Mgr) (name : String) (ops : List MgrOp) :
    ((getChannel name (getChannel name s).1).1 = (getChannel name s).1 ∧
      (getChannel name (getChannel name s).1).2 = (getChannel name s).2) ∧
    (findChannel name s = none →
      (getChannel name s).1.addedLog = s.addedLog ++ [name] ∧
      ∃ r ∈ (getChannel name s).1.resources, r.uri = OutputUri.create name) ∧
    (∀ e, findChannel name s = some e →
      (getChannel name s).1 = s ∧ (getChannel name s).2 = e.chanId) ∧
    (∀ e₁ ∈ (runMgr ops).channels, ∀ e₂ ∈ (runMgr ops).channels,
      e₁.name ≠ e₂.name → e₁.chanId ≠ e₂.chanId) := by
  refine ⟨?_, ?_, ?_, ?_⟩
  · have hpair : ∀ (s₁ : Mgr) (i : Nat), findChannel name s₁ = some ⟨name, i,
        (findChannel name s).elim true (fun e => e.visible)⟩ →
        getChannel name s₁ = (s₁, i) := by
      intro s₁ i hf
      simp [getChannel, hf]
    have h2 := hpair _ _ (findChannel_after_getChannel s name)
    exact ⟨congrArg Prod.fst h2, congrArg Prod.snd h2⟩
  · intro hfind
    rw [getChannel_none_eq s name hfind]
    refine ⟨rfl, ?_⟩
    show ∃ r ∈ (if (s.resources.find? (fun r => r.uri == OutputUri.create name)).isSome
        then s.resources else s.resources ++ [⟨OutputUri.create name, s.nextId⟩]),
      r.uri = OutputUri.create name
    split
    · next hsome =>
      obtain ⟨r, hr⟩ := Option.isSome_iff_exists.mp hsome
      have hp := List.find?_some hr
      have hru : r.uri = OutputUri.create name := eq_of_beq hp
      exact ⟨r, List.mem_of_find?_eq_some hr, hru⟩
    · exact ⟨⟨OutputUri.create name, s.nextId⟩,
        List.mem_append.mpr (Or.inr (by simp)), rfl⟩
  · intro e hfind
    constructor
    · simp [getChannel, hfind]
    · simp [getChannel, hfind]
  · intro e₁ h1 e₂ h2 hne hid
    exact hne (congrArg ChannelEntry.name
      (List.inj_on_of_nodup_map (wf_runMgr ops).idsNodup h1 h2 hid))

/-- Witness for C6: creating `x` in a fresh manager fires one added event and
registers its resource; the repeated call changes nothing. -/
theorem getChannel_registry_witness :
    (getChannel "x" initMgr).1.addedLog = ["x"] ∧
    (getChannel "x" (getChannel "x" initMgr).1).1 = (getChannel "x" initMgr).1 ∧
    ∃ r ∈ (getChannel "x" initMgr).1.resources, r.uri = OutputUri.create "x" := by
  have h := getChannel_registry initMgr "x" []
  exact ⟨((h.2.1 rfl).1).trans rfl, h.1.1, (h.2.1 rfl).2⟩

/-- Claim C8: `resolve(uri)` fails exactly when the URI does not use the
output scheme or no output resource is registered under it; otherwise it
returns exactly the registered resource — in particular, after `getChannel`
registered the resource of a fresh channel, resolving the channel URI
returns it. -/
theorem resolve_spec (uri : Uri) (s : Mgr) (name : String) :
    ((∃ msg, resolve uri s = Except.error msg) ↔
      (OutputUri.is uri = false ∨
        s.resources.find? (fun r => r.uri == uri) = none)) ∧
    (∀ r, resolve uri s = Except.ok r ↔
      (OutputUri.is uri = true ∧
        s.resources.find? (fun r => r.uri == uri) = some r)) ∧
    (findChannel name s = none →
      ∃ r, (getChannel name s).1.resources.find?
          (fun x => x.uri == OutputUri.create name) = some r ∧
        resolve (OutputUri.create name) (getChannel name s).1 = Except.ok r) := by
  refine ⟨?_, ?_, ?_⟩
  · cases his : OutputUri.is uri with
    | false => simp [resolve, his]
    | true =>
      cases hfindr : s.resources.find? (fun r => r.uri == uri) with
      | none => simp [resolve, his, hfindr]
      | some r0 => simp [resolve, his, hfindr]
  · intro r
    cases his : OutputUri.is uri with
    | false => simp [resolve, his]
    | true =>
      cases hfindr : s.resources.find? (fun r => r.uri == uri) with
      | none => simp [resolve, his, hfindr]
      | some r0 => simp [resolve, his, hfindr, eq_comm]
  · intro hfind
    have his : OutputUri.is (OutputUri.create name) = true := by
      simp [OutputUri.is, OutputUri.create]
    rw [getChannel_none_eq s name hfind]
    have hfound : (if (s.resources.find?
          (fun r => r.uri == OutputUri.create name)).isSome
        then s.resources
        else s.resources ++ [⟨OutputUri.create name, s.nextId⟩]).find?
          (fun x => x.uri == OutputUri.create name) =
        some ((s.resources.find? (fun r => r.uri == OutputUri.create name)).getD
          ⟨OutputUri.create name, s.nextId⟩) := by
      split
      · next hsome =>
        obtain ⟨r, hr⟩ := Option.isSome_iff_exists.mp hsome
        rw [hr]
        simp [Option.getD]
      · next hnone =>
        have hnone' : s.resources.find? (fun r => r.uri == OutputUri.create name) = none := by
          rcases ho : s.resources.find? (fun r => r.uri == OutputUri.create name) with _ | r
          · exact ho
          · rw [ho] at hnone
            simp at hnone
        rw [List.find?_append, hnone']
        simp [Option.or]
    refine ⟨_, hfound, ?_⟩
    show resolve (OutputUri.create name) _ = _
    rw [resolve, his]
    simp only [Bool.not_true, Bool.false_eq_true, if_false]
    rw [hfound]

/-- Witness for C8: resolving the URI of a freshly created channel returns its
registered resource. -/
theorem resolve_spec_witness :
    ∃ r, resolve (OutputUri.create "x") (getChannel "x" initMgr).1 = Except.ok r := by
  obtain ⟨r, hfindR, hres⟩ := (resolve_spec (OutputUri.create "x") initMgr "x").2.2 rfl
  exact ⟨r, hres⟩

/-- Claim C9: `deleteChannel` on an unregistered name is a no-op apart from a
console warning — the channel map, the resource map, the selection, the
disposables and the event logs are all unchanged and no `onChannelDeleted`
fires; on a registered name it removes exactly that channel from the map,
removes and disposes its registered resource, fires `onChannelDeleted` exactly
once, and fires no `onChannelAdded`. -/
theorem deleteChannel_spec (s : Mgr) (name : String) :
    (findChannel name s = none → deleteChannel name s = s) ∧
    (findChannel name s ≠ none →
      (deleteChannel name s).channels =
        s.channels.filter (fun x => !(x.name == name)) ∧
      (deleteChannel name s).resources =
        s.resources.filter (fun r => !(r.uri == OutputUri.create name)) ∧
      (deleteChannel name s).deletedLog = s.deletedLog ++ [name] ∧
      (deleteChannel name s).addedLog = s.addedLog ∧
      (∀ r, s.resources.find? (fun x => x.uri == OutputUri.create name) = some r →
        (deleteChannel name s).disposedResources =
          s.disposedResources ++ [r.resId])) := by
  constructor
  · intro hfind
    simp [deleteChannel, hfind]
  · intro hne
    rcases hfindr : findChannel name s with _ | e
    · exact absurd hfindr hne
    have hfields : (deleteChannel name s).channels =
          s.channels.filter (fun x => !(x.name == name)) ∧
        (deleteChannel name s).resources =
          s.resources.filter (fun r => !(r.uri == OutputUri.create name)) ∧
        (deleteChannel name s).deletedLog = s.deletedLog ++ [name] ∧
        (deleteChannel name s).addedLog = s.addedLog ∧
        (deleteChannel name s).disposedResources =
          (match s.resources.find? (fun r => r.uri == OutputUri.create name) with
            | some r => s.disposedResources ++ [r.resId]
            | none => s.disposedResources) := by
      rcases hselOld : s.selected with _ | ⟨seln, selid⟩
      · refine ⟨?_, ?_, ?_, ?_, ?_⟩ <;> simp [deleteChannel, hfindr, hselOld]
      · by_cases hn : seln = name
        · refine ⟨?_, ?_, ?_, ?_, ?_⟩ <;> simp [deleteChannel, hfindr, hselOld, hn]
        · refine ⟨?_, ?_, ?_, ?_, ?_⟩ <;> simp [deleteChannel, hfindr, hselOld, hn]
    refine ⟨hfields.1, hfields.2.1, hfields.2.2.1, hfields.2.2.2.1, ?_⟩
    intro r hr
    rw [hfields.2.2.2.2, hr]

/-- Witness for C9: deleting an unknown name leaves a fresh manager unchanged;
deleting a created channel empties the channel map and logs one deletion. -/
theorem deleteChannel_spec_witness :
    deleteChannel "ghost" initMgr = initMgr ∧
    (deleteChannel "x" (getChannel "x" initMgr).1).channels = [] ∧
    (deleteChannel "x" (getChannel "x" initMgr).1).deletedLog = ["x"] := by
  refine ⟨(deleteChannel_spec initMgr "ghost").1 rfl, ?_, ?_⟩
  · exact ((deleteChannel_spec (getChannel "x" initMgr).1 "x").2
      (by decide)).1.trans (by decide)
  · exact ((deleteChannel_spec (getChannel "x" initMgr).1 "x").2
      (by decide)).2.2.1.trans (by decide)

/-! ### The quick-pick channel list

`OutputChannelManager.pick` sorts the channels in place — visible channels
first, then case-insensitively by name — and builds the quick-pick item
list, pushing a separator item before index `0` and wherever a hidden
channel follows a visible one.  `toLocaleLowerCase`/`localeCompare` are
modelled as code-point lowering and lexicographic code-point comparison. -/

/-- A channel as `pick` sees it: its name and its visibility flag. -/
structure PickChannel where
  name : String
  isVisible : Bool
  deriving DecidableEq, Repr

/-- Model of `name.toLocaleLowerCase()`: the lower-cased code points. -/
def lowerName (c : PickChannel) : List Nat :=
  c.name.data.map (fun ch => ch.toLower.toNat)

/-- Model of `localeCompare(..) <= 0`: lexicographic comparison of code-point
sequences. -/
def lexLe : List Nat → List Nat → Bool
  | [], _ => true
  | _ :: _, [] => false
  | a :: as, b :: bs => if a < b then true else if b < a then false else lexLe as bs

/-- The sort comparator of `OutputChannelManager.pick`, read as a total
preorder: `left` sorts no later than `right` iff `left` is visible and
`right` is not, or they are equally visible and `left`'s lower-cased name
compares no greater. -/
def pickLe (l r : PickChannel) : Bool :=
  if l.isVisible != r.isVisible then l.isVisible
  else lexLe (lowerName l) (lowerName r)

/-- `pickLe` as a relation, for sorting. -/
def PickRel (l r : PickChannel) : Prop := pickLe l r = true

instance : DecidableRel PickRel := fun l r =>
  inferInstanceAs (Decidable (pickLe l r = true))

/-- The in-group order of the quick-pick list: names compared
case-insensitively. -/
def NameRel (a b : PickChannel) : Prop :=
  lexLe (lowerName a) (lowerName b) = true

theorem lexLe_total : ∀ x y : List Nat, lexLe x y = true ∨ lexLe y x = true
  | [], _ => Or.inl rfl
  | _ :: _, [] => Or.inr rfl
  | a :: as, b :: bs => by
    by_cases hab : a < b
    · left
      simp [lexLe, hab]
    · by_cases hba : b < a
      · right
        simp [lexLe, hba, hab]
      · rcases lexLe_total as bs with h | h
        · left
          simp [lexLe, hab, hba, h]
        · right
          simp [lexLe, hab, hba, h]

theorem lexLe_trans : ∀ x y z : List Nat,
    lexLe x y = true → lexLe y z = true → lexLe x z = true
  | [], _, _, _, _ => rfl
  | _ :: _, [], _, h, _ => by simp [lexLe] at h
  | _ :: _, _ :: _, [], _, h => by simp [lexLe] at h
  | a :: as, b :: bs, c :: cs, h1, h2 => by
    simp only [lexLe] at h1 h2 ⊢
    by_cases hab : a < b
    · have hbc : b ≤ c := by
        by_cases hbc' : b < c
        · omega
        · by_cases hcb : c < b
          · rw [if_neg hbc', if_pos hcb] at h2
            exact absurd h2 (by simp)
          · omega
      rw [if_pos (by omega : a < c)]
    · by_cases hba : b < a
      · rw [if_neg hab, if_pos hba] at h1
        exact absurd h1 (by simp)
      · have hab' : a = b := by omega
        subst hab'
        rw [if_neg hab, if_neg hba] at h1
        by_cases hac : a < c
        · rw [if_pos hac]
        · by_cases hca : c < a
          · rw [if_neg hac, if_pos hca] at h2
            exact absurd h2 (by simp)
          · rw [if_neg hac, if_neg hca] at h2 ⊢
            exact lexLe_trans as bs cs h1 h2

instance : IsTotal PickChannel PickRel where
  total a b := by
    simp only [PickRel, pickLe]
    cases ha : a.isVisible <;> cases hb : b.isVisible
    · rcases lexLe_total (lowerName a) (lowerName b) with h | h
      · left
        simp [h]
      · right
        simp [h]
    · right
      simp
    · left
      simp
    · rcases lexLe_total (lowerName a) (lowerName b) with h | h
      · left
        simp [h]
      · right
        simp [h]

instance : IsTrans PickChannel PickRel where
  trans a b c h1 h2 := by
    obtain ⟨na, va⟩ := a
    obtain ⟨nb, vb⟩ := b
    obtain ⟨nc, vc⟩ := c
    simp only [PickRel, pickLe] at h1 h2 ⊢
    cases va <;> cases vb <;> cases vc
    · simp only [bne_self_eq_false, Bool.false_eq_true, if_false] at h1 h2 ⊢
      exact lexLe_trans _ _ _ h1 h2
    · simp at h2
    · simp at h1
    · simp at h1
    · simp
    · simp at h2
    · simp
    · simp only [bne_self_eq_false, Bool.false_eq_true, if_false] at h1 h2 ⊢
      exact lexLe_trans _ _ _ h1 h2

/-- `channels.sort(comparator)`: JavaScript's sort returns the array sorted
under the comparator; it also sorts in place, so `pick`'s item loop (which
reads `channels[i]`) iterates over exactly this sorted list. -/
def sortChannels (channels : List PickChannel) : List PickChannel :=
  List.insertionSort PickRel channels

/-- One entry of the quick-pick item list: the separator pseudo-item or a
channel item labelled with the channel name. -/
inductive PickItem
  | separator
  | channelItem (label : String) (value : PickChannel)
  deriving DecidableEq, Repr

/-- The item loop of `pick`: a separator is pushed before index `0` and
whenever the previous channel is visible and the current one is hidden
(`prevHasDifferentVisibility`); each channel is pushed as an item labelled
with its name. -/
def pickItemsLoop (prev : Option PickChannel) : List PickChannel → List PickItem
  | [] => []
  | ch :: rest =>
    (match prev with
      | none => [PickItem.separator]
      | some p => if !ch.isVisible && p.isVisible then [PickItem.separator] else []) ++
    PickItem.channelItem ch.name ch :: pickItemsLoop (some ch) rest

/-- The item list built by `OutputChannelManager.pick`. -/
def pickItems (channels : List PickChannel) : List PickItem :=
  pickItemsLoop none (sortChannels channels)

theorem pickLe_same_vis {a b : PickChannel} (h : a.isVisible = b.isVisible) :
    pickLe a b = lexLe (lowerName a) (lowerName b) := by
  rw [pickLe, h]
  simp

theorem pickItemsLoop_visible : ∀ (rest : List PickChannel) (p : PickChannel),
    (∀ c ∈ rest, c.isVisible = true) →
    pickItemsLoop (some p) rest =
      rest.map (fun c => PickItem.channelItem c.name c)
  | [], _, _ => rfl
  | ch :: rest, p, h => by
    have hch : ch.isVisible = true := h ch (by simp)
    simp only [pickItemsLoop, hch, Bool.not_true, Bool.false_and, Bool.false_eq_true,
      if_false, List.nil_append, List.map_cons]
    rw [pickItemsLoop_visible rest ch (fun c hc => h c (by simp [hc]))]

theorem pickItemsLoop_hidden : ∀ (rest : List PickChannel) (p : PickChannel),
    (∀ c ∈ rest, c.isVisible = false) → p.isVisible = false →
    pickItemsLoop (some p) rest =
      rest.map (fun c => PickItem.channelItem c.name c)
  | [], _, _, _ => rfl
  | ch :: rest, p, h, hp => by
    have hch : ch.isVisible = false := h ch (by simp)
    simp only [pickItemsLoop, hp, Bool.and_false, Bool.false_eq_true, if_false,
      List.nil_append, List.map_cons]
    rw [pickItemsLoop_hidden rest ch (fun c hc => h c (by simp [hc])) hch]

theorem pickItemsLoop_vis_then_hid :
    ∀ (vis : List PickChannel) (p : PickChannel) (hid : List PickChannel),
    (∀ c ∈ vis, c.isVisible = true) → p.isVisible = true →
    (∀ c ∈ hid, c.isVisible = false) →
    pickItemsLoop (some p) (vis ++ hid) =
      vis.map (fun c => PickItem.channelItem c.name c) ++
        (if hid = [] then []
          else PickItem.separator :: hid.map (fun c => PickItem.channelItem c.name c))
  | [], p, [], _, _, _ => rfl
  | [], p, ch :: hid, _, hp, hh => by
    have hch : ch.isVisible = false := hh ch (by simp)
    simp only [List.nil_append, pickItemsLoop, hch, hp, Bool.not_false, Bool.true_and,
      if_true, List.map_nil, List.map_cons]
    rw [pickItemsLoop_hidden hid ch (fun c hc => hh c (by simp [hc])) hch]
    simp
  | ch :: vis, p, hid, hv, hp, hh => by
    have hch : ch.isVisible = true := hv ch (by simp)
    simp only [List.cons_append, pickItemsLoop, hch, Bool.not_true, Bool.false_and,
      Bool.false_eq_true, if_false, List.nil_append, List.map_cons, List.append_eq]
    rw [pickItemsLoop_vis_then_hid vis ch hid (fun c hc => hv c (by simp [hc])) hch hh]

/-- Claim C7: the quick-pick channel list shows all visible channels before
all hidden channels, each group ordered by name compared case-insensitively,
with one separator item at the start of the list and one at the boundary
where the visible channels end and the hidden ones begin (present only when
both groups are nonempty). -/
theorem pick_items_layout (channels : List PickChannel) (h : channels ≠ []) :
    ∃ vis hid,
      (∀ c ∈ vis, c.isVisible = true) ∧
      (∀ c ∈ hid, c.isVisible = false) ∧
      List.Sorted NameRel vis ∧
      List.Sorted NameRel hid ∧
      List.Perm (vis ++ hid) channels ∧
      pickItems channels =
        PickItem.separator :: vis.map (fun c => PickItem.channelItem c.name c) ++
          (if vis = [] ∨ hid = []
            then hid.map (fun c => PickItem.channelItem c.name c)
            else PickItem.separator ::
              hid.map (fun c => PickItem.channelItem c.name c)) := by
  have hsorted : (sortChannels channels).Sorted PickRel :=
    List.sorted_insertionSort PickRel channels
  have hperm : List.Perm (sortChannels channels) channels :=
    List.perm_insertionSort PickRel channels
  refine ⟨(sortChannels channels).takeWhile (fun c => c.isVisible),
    (sortChannels channels).dropWhile (fun c => c.isVisible), ?_, ?_, ?_, ?_, ?_, ?_⟩
  · intro c hc
    exact List.mem_takeWhile_imp hc
  · -- every element of the dropWhile part is hidden, by sortedness
    have : ∀ l : List PickChannel, l.Sorted PickRel →
        ∀ c ∈ l.dropWhile (fun c => c.isVisible), c.isVisible = false := by
      intro l
      induction l with
      | nil => simp
      | cons a as ih =>
        intro hs c hc
        cases hs with
        | cons h1 h2 =>
          by_cases ha : a.isVisible = true
          · rw [List.dropWhile_cons, if_pos ha] at hc
            exact ih h2 c hc
          · rw [List.dropWhile_cons, if_neg ha] at hc
            have ha' : a.isVisible = false := by
              cases hv : a.isVisible
              · rfl
              · exact absurd hv ha
            rcases List.mem_cons.mp hc with rfl | hc'
            · exact ha'
            · by_contra hvis
              have hvis' : c.isVisible = true := by
                cases hv : c.isVisible
                · exact absurd hv hvis
                · rfl
              have hr := h1 c hc'
              rw [PickRel, pickLe, ha', hvis'] at hr
              simp at hr
    exact this _ hsorted
  · have hsub : ((sortChannels channels).takeWhile
        (fun c => c.isVisible)).Sorted PickRel :=
      hsorted.sublist (List.takeWhile_sublist _)
    refine hsub.imp_of_mem ?_
    intro a b ha hb hr
    have hav : a.isVisible = true := List.mem_takeWhile_imp ha
    have hbv : b.isVisible = true := List.mem_takeWhile_imp hb
    rw [NameRel, ← pickLe_same_vis (hav.trans hbv.symm)]
    exact hr
  · have hsub : ((sortChannels channels).dropWhile
        (fun c => c.isVisible)).Sorted PickRel :=
      hsorted.sublist (List.dropWhile_sublist _)
    have hallhid : ∀ c ∈ (sortChannels channels).dropWhile (fun c => c.isVisible),
        c.isVisible = false := by
      intro c hc
      have : ∀ l : List PickChannel, l.Sorted PickRel →
          ∀ c ∈ l.dropWhile (fun c => c.isVisible), c.isVisible = false := by
        intro l
        induction l with
        | nil => simp
        | cons a as ih =>
          intro hs c hc
          cases hs with
          | cons h1 h2 =>
            by_cases ha : a.isVisible = true
            · rw [List.dropWhile_cons, if_pos ha] at hc
              exact ih h2 c hc
            · rw [List.dropWhile_cons, if_neg ha] at hc
              have ha' : a.isVisible = false := by
                cases hv : a.isVisible
                · rfl
                · exact absurd hv ha
              rcases List.mem_cons.mp hc with rfl | hc'
              · exact ha'
              · by_contra hvis
                have hvis' : c.isVisible = true := by
                  cases hv : c.isVisible
                  · exact absurd hv hvis
                  · rfl
                have hr := h1 c hc'
                rw [PickRel, pickLe, ha', hvis'] at hr
                simp at hr
      exact this _ hsorted c hc
    refine hsub.imp_of_mem ?_
    intro a b ha hb hr
    rw [NameRel, ← pickLe_same_vis ((hallhid a ha).trans (hallhid b hb).symm)]
    exact hr
  · rw [List.takeWhile_append_dropWhile]
    exact hperm
  · rw [pickItems]
    have hne : sortChannels channels ≠ [] := by
      intro hnil
      rw [hnil] at hperm
      exact h (List.Perm.eq_nil hperm.symm)
    rcases hl : sortChannels channels with _ | ⟨x, rest⟩
    · exact absurd hl hne
    have hallhid : ∀ c ∈ (x :: rest).dropWhile (fun c => c.isVisible),
        c.isVisible = false := by
      have : ∀ l : List PickChannel, l.Sorted PickRel →
          ∀ c ∈ l.dropWhile (fun c => c.isVisible), c.isVisible = false := by
        intro l
        induction l with
        | nil => simp
        | cons a as ih =>
          intro hs c hc
          cases hs with
          | cons h1 h2 =>
            by_cases ha : a.isVisible = true
            · rw [List.dropWhile_cons, if_pos ha] at hc
              exact ih h2 c hc
            · rw [List.dropWhile_cons, if_neg ha] at hc
              have ha' : a.isVisible = false := by
                cases hv : a.isVisible
                · rfl
                · exact absurd hv ha
              rcases List.mem_cons.mp hc with rfl | hc'
              · exact ha'
              · by_contra hvis
                have hvis' : c.isVisible = true := by
                  cases hv : c.isVisible
                  · exact absurd hv hvis
                  · rfl
                have hr := h1 c hc'
                rw [PickRel, pickLe, ha', hvis'] at hr
                simp at hr
      exact this _ (hl ▸ hsorted)
    cases hx : x.isVisible with
    | true =>
      rw [List.takeWhile_cons, if_pos hx, List.dropWhile_cons, if_pos hx]
      have hrest : rest = rest.takeWhile (fun c => c.isVisible) ++
          rest.dropWhile (fun c => c.isVisible) :=
        (List.takeWhile_append_dropWhile _ _).symm
      show PickItem.separator :: PickItem.channelItem x.name x ::
        pickItemsLoop (some x) rest = _
      rw [show pickItemsLoop (some x) rest =
          pickItemsLoop (some x) (rest.takeWhile (fun c => c.isVisible) ++
            rest.dropWhile (fun c => c.isVisible)) from by rw [← hrest]]
      rw [pickItemsLoop_vis_then_hid _ x _
        (fun c hc => List.mem_takeWhile_imp hc) hx
        (fun c hc => by
          apply hallhid
          rw [List.dropWhile_cons, if_pos hx]
          exact hc)]
      by_cases hhid : rest.dropWhile (fun c => c.isVisible) = []
      · rw [hhid]
        simp
      · rw [if_neg hhid, if_neg (by
          intro hor
          rcases hor with hor | hor
          · exact absurd hor (by simp)
          · exact hhid hor)]
        simp
    | false =>
      have hx' : ¬x.isVisible = true := by simp [hx]
      rw [List.takeWhile_cons, if_neg hx', List.dropWhile_cons, if_neg hx']
      show PickItem.separator :: PickItem.channelItem x.name x ::
        pickItemsLoop (some x) rest = _
      rw [pickItemsLoop_hidden rest x
        (fun c hc => by
          apply hallhid
          rw [List.dropWhile_cons, if_neg hx']
          simp [hc]) hx]
      simp

/-- Witness for C7: three channels, one hidden; the item list is a separator,
the visible channels in case-insensitive order, a separator, then the hidden
channel. -/
theorem pick_items_layout_witness :
    pickItems [⟨"beta", false⟩, ⟨"Alpha", true⟩, ⟨"gamma", true⟩] =
      [PickItem.separator,
        PickItem.channelItem "Alpha" ⟨"Alpha", true⟩,
        PickItem.channelItem "gamma" ⟨"gamma", true⟩,
        PickItem.separator,
        PickItem.channelItem "beta" ⟨"beta", false⟩] ∧
    ∃ vis hid : List PickChannel,
      (∀ c ∈ vis, c.isVisible = true) ∧
      (∀ c ∈ hid, c.isVisible = false) ∧
      List.Perm (vis ++ hid)
        ([⟨"beta", false⟩, ⟨"Alpha", true⟩, ⟨"gamma", true⟩] : List PickChannel) := by
  obtain ⟨vis, hid, h1, h2, h3, h4, h5, h6⟩ :=
    pick_items_layout [⟨"beta", false⟩, ⟨"Alpha", true⟩, ⟨"gamma", true⟩] (by decide)
  exact ⟨by decide, vis, hid, h1, h2, h5⟩

end Output
